import Mathlib

/-!
# SipHash-2-4 streaming engine (src/libcore/hash/sip.rs): a shallow embedding

This file embeds the SipHash-2-4 compression engine of `src/libcore/hash/sip.rs`
into Lean and proves the specification's claims about it.

Machine integers (`u64`, `uint`) are modelled as `Nat` with explicit `% 2 ^ 64`
exactly where the Rust semantics wraps.  Byte buffers (`&[u8]`) are modelled as
`List Nat`; genuine byte values are `< 256`, and theorems that need this bound
state it as a hypothesis.  Slice indexing `buf[i]` is modelled as `List.getD buf i 0`;
the code never indexes out of bounds, so the default is never observed on the
executions the theorems describe.
-/

namespace Sip

/-- The fields of `struct SipState` (sip.rs lines 34-44).  `k0 k1 : u64` keys,
`length : uint` bytes processed, `v0..v3 : u64` hash state, `tail : u64`
unprocessed bytes (little-endian), `ntail : uint` valid bytes in `tail`. -/
@[ext] structure SipState where
  k0 : Nat
  k1 : Nat
  length : Nat
  v0 : Nat
  v1 : Nat
  v2 : Nat
  v3 : Nat
  tail : Nat
  ntail : Nat
deriving DecidableEq, Repr

/-- The macro `u8to64_le!($buf, $i)` (first arm, sip.rs lines 53-61): reads the
eight bytes `buf[i] .. buf[7+i]` as one little-endian 64-bit word. -/
def u8to64_le (buf : List Nat) (i : Nat) : Nat :=
  buf.getD (0 + i) 0 |||
  buf.getD (1 + i) 0 <<< 8 |||
  buf.getD (2 + i) 0 <<< 16 |||
  buf.getD (3 + i) 0 <<< 24 |||
  buf.getD (4 + i) 0 <<< 32 |||
  buf.getD (5 + i) 0 <<< 40 |||
  buf.getD (6 + i) 0 <<< 48 |||
  buf.getD (7 + i) 0 <<< 56

/-- The macro `u8to64_le!($buf, $i, $len)` (second arm, sip.rs lines 62-71):
`out |= buf[t+i] as u64 << t*8` for `t = 0 .. len-1`. -/
def u8to64_le_n (buf : List Nat) (i : Nat) : Nat → Nat
  | 0 => 0
  | t + 1 => u8to64_le_n buf i t ||| buf.getD (t + i) 0 <<< (t * 8)

/-- The macro `rotl!($x, $b)` (sip.rs lines 74-77): `(x << b) | (x >> (64 - b))`
on `u64`, so the left shift is truncated to 64 bits. -/
def rotl (x b : Nat) : Nat :=
  ((x <<< b) % 2 ^ 64) ||| (x >>> (64 - b))

/-- The macro `compress!(v0, v1, v2, v3)` (sip.rs lines 79-89): one SipHash
compression round on the four state words; `+=` is wrapping `u64` addition. -/
def compress (v : Nat × Nat × Nat × Nat) : Nat × Nat × Nat × Nat :=
  let v0 := v.1
  let v1 := v.2.1
  let v2 := v.2.2.1
  let v3 := v.2.2.2
  let v0 := (v0 + v1) % 2 ^ 64
  let v1 := rotl v1 13
  let v1 := v1 ^^^ v0
  let v0 := rotl v0 32
  let v2 := (v2 + v3) % 2 ^ 64
  let v3 := rotl v3 16
  let v3 := v3 ^^^ v2
  let v0 := (v0 + v3) % 2 ^ 64
  let v3 := rotl v3 21
  let v3 := v3 ^^^ v0
  let v2 := (v2 + v1) % 2 ^ 64
  let v1 := rotl v1 17
  let v1 := v1 ^^^ v2
  let v2 := rotl v2 32
  (v0, v1, v2, v3)

/-- The message-round pattern the code repeats verbatim for every 64-bit word `m`
(sip.rs lines 137-140, 170-173, 187-190): `v3 ^= m; compress!; compress!; v0 ^= m`. -/
def sipRound (v : Nat × Nat × Nat × Nat) (m : Nat) : Nat × Nat × Nat × Nat :=
  let w := compress (compress (v.1, v.2.1, v.2.2.1, v.2.2.2 ^^^ m))
  (w.1 ^^^ m, w.2.1, w.2.2.1, w.2.2.2)

/-- `SipState::reset` (sip.rs lines 118-125).  Note that it re-derives
`v0..v3`, zeroes `length` and `ntail`, but does NOT assign `tail`. -/
def SipState.reset (s : SipState) : SipState :=
  { s with
    length := 0
    v0 := s.k0 ^^^ 0x736f6d6570736575
    v1 := s.k1 ^^^ 0x646f72616e646f6d
    v2 := s.k0 ^^^ 0x6c7967656e657261
    v3 := s.k1 ^^^ 0x7465646279746573
    ntail := 0 }

/-- `SipState::new_with_keys` (sip.rs lines 100-114): all fields zeroed except
the keys, then `reset`. -/
def SipState.new_with_keys (key0 key1 : Nat) : SipState :=
  SipState.reset
    { k0 := key0, k1 := key1, length := 0, v0 := 0, v1 := 0, v2 := 0, v3 := 0,
      tail := 0, ntail := 0 }

/-- `SipState::new` (sip.rs lines 94-96): zero keys. -/
def SipState.new : SipState :=
  SipState.new_with_keys 0 0

/-- `SipState::result` (sip.rs lines 129-149): the finalization, computed on
local copies of `v0..v3` (the receiver is `&self`, so the persistent state is
left untouched - which the pure type `SipState → Nat` makes structural here). -/
def SipState.result (s : SipState) : Nat :=
  let b : Nat := ((s.length &&& 0xff) <<< 56) ||| s.tail
  let w := sipRound (s.v0, s.v1, s.v2, s.v3) b
  let x := compress (compress (compress (compress (w.1, w.2.1, w.2.2.1 ^^^ 0xff, w.2.2.2))))
  x.1 ^^^ x.2.1 ^^^ x.2.2.1 ^^^ x.2.2.2

/-- The `while i < end` loop of `Writer::write` (sip.rs lines 184-193): process
consecutive 8-byte words starting at index `i` while `i < endp`, stepping by 8.
`fuel` only bounds the recursion; every call site passes `fuel = endp`, which
exceeds the iteration count, so the loop semantics is exactly the `while`. -/
def writeLoop (msg : List Nat) (endp : Nat) (fuel : Nat)
    (v : Nat × Nat × Nat × Nat) (i : Nat) : (Nat × Nat × Nat × Nat) × Nat :=
  match fuel with
  | 0 => (v, i)
  | fuel + 1 =>
    if i < endp then
      writeLoop msg endp fuel (sipRound v (u8to64_le msg i)) (i + 8)
    else
      (v, i)

/-- The block-and-leftover phase of `Writer::write` (sip.rs lines 179-196),
entered after the buffered tail has been flushed: `len = length - needed`,
`end = len & !0x7`, `left = len & 0x7` (`!0x7` on 64-bit `uint`), run the word
loop from `i = needed`, then store the `left` leftover bytes in `tail`. -/
def writeTail (s : SipState) (msg : List Nat) (needed : Nat) : SipState :=
  let len := msg.length - needed
  let endp := len &&& 0xfffffffffffffff8
  let left := len &&& 0x7
  let r := writeLoop msg endp endp (s.v0, s.v1, s.v2, s.v3) needed
  { s with
    v0 := r.1.1, v1 := r.1.2.1, v2 := r.1.2.2.1, v3 := r.1.2.2.2
    tail := u8to64_le_n msg r.2 left
    ntail := left }

/-- `Writer::write for SipState` (sip.rs lines 154-197).  `self.length += length`
wraps on `uint`; if a partial word is pending (`ntail != 0`), either buffer the
new bytes when they do not complete a word (`length < needed`, early return), or
complete and mix one word and continue; then process whole blocks and stash the
leftover.  `8 - ntail` is `uint` subtraction; it never underflows because
`ntail ≤ 7` in every reachable state. -/
def write (s : SipState) (msg : List Nat) : SipState :=
  let length := msg.length
  let s := { s with length := (s.length + length) % 2 ^ 64 }
  if s.ntail ≠ 0 then
    let needed := 8 - s.ntail
    if length < needed then
      { s with
        tail := s.tail ||| u8to64_le_n msg 0 length <<< (8 * s.ntail)
        ntail := s.ntail + length }
    else
      let m := s.tail ||| u8to64_le_n msg 0 needed <<< (8 * s.ntail)
      let v := sipRound (s.v0, s.v1, s.v2, s.v3) m
      writeTail { s with v0 := v.1, v1 := v.2.1, v2 := v.2.2.1, v3 := v.2.2.2,
                         ntail := 0 } msg needed
  else
    writeTail s msg 0

/-- The free function `hash` (sip.rs lines 257-261): a fresh zero-key state, the
value feeds itself in as a sequence of `write` calls (modelled by the list of
buffers `bufs`), then `result`. -/
def hash (bufs : List (List Nat)) : Nat :=
  (bufs.foldl write SipState.new).result

/-- The free function `hash_with_keys` (sip.rs lines 265-269). -/
def hash_with_keys (k0 k1 : Nat) (bufs : List (List Nat)) : Nat :=
  (bufs.foldl write (SipState.new_with_keys k0 k1)).result

/-! ### A byte-at-a-time reference absorber

`absorbByte` is a proof device, not a translation of any one source line: it
absorbs a single byte the way the engine's state evolves per byte (buffer into
`tail`, and when the eighth byte of a word arrives, mix the word and clear the
buffer).  `absorb` folds it over a buffer.  The simulation theorem
`write_eq_absorb` below proves that `write` agrees with it on every state the
engine can actually be in, which reduces chunking questions to `List.foldl`
algebra. -/

/-- Absorb one byte: buffer it into `tail`, or - when it completes an 8-byte
word - mix the word with the message round and clear the buffer. -/
def absorbByte (s : SipState) (b : Nat) : SipState :=
  if s.ntail = 7 then
    let m := s.tail ||| b <<< 56
    let v := sipRound (s.v0, s.v1, s.v2, s.v3) m
    { s with length := (s.length + 1) % 2 ^ 64,
             v0 := v.1, v1 := v.2.1, v2 := v.2.2.1, v3 := v.2.2.2,
             tail := 0, ntail := 0 }
  else
    { s with length := (s.length + 1) % 2 ^ 64,
             tail := s.tail ||| b <<< (8 * s.ntail),
             ntail := s.ntail + 1 }

/-- Absorb a whole buffer one byte at a time. -/
def absorb (s : SipState) (msg : List Nat) : SipState :=
  msg.foldl absorbByte s

/-- The pure unrolling of the word loop: fold the message round over the `k`
consecutive 8-byte words of `msg` starting at index `i`. -/
def foldBlocks (msg : List Nat) (v : Nat × Nat × Nat × Nat) (i : Nat) :
    Nat → Nat × Nat × Nat × Nat
  | 0 => v
  | k + 1 => foldBlocks msg (sipRound v (u8to64_le msg i)) (i + 8) k

/-! ### Definitions written from the specification's words

These deliberately follow the phrasing of spec.md rather than the source, so
that proving them equal to the source-derived definitions above is a genuine
check. -/

/-- Modelled from the spec: a 64-bit left rotation by `b`, phrased
arithmetically - the low `64 - b` bits move up by `b` places and the high `b`
bits wrap down to the bottom. -/
def rotlSpec (x b : Nat) : Nat :=
  (x % 2 ^ (64 - b)) * 2 ^ b + x / 2 ^ (64 - b)

/-- Modelled from the spec (section 4.1, "Compression permutation"): the fixed
add-rotate-xor sequence with rotation amounts 13,32,16,21,17,32, all additions
unsigned 64-bit with silent wraparound. -/
def compressSpec (v : Nat × Nat × Nat × Nat) : Nat × Nat × Nat × Nat :=
  let v0 := v.1
  let v1 := v.2.1
  let v2 := v.2.2.1
  let v3 := v.2.2.2
  let v0 := (v0 + v1) % 2 ^ 64
  let v1 := rotlSpec v1 13
  let v1 := v1 ^^^ v0
  let v0 := rotlSpec v0 32
  let v2 := (v2 + v3) % 2 ^ 64
  let v3 := rotlSpec v3 16
  let v3 := v3 ^^^ v2
  let v0 := (v0 + v3) % 2 ^ 64
  let v3 := rotlSpec v3 21
  let v3 := v3 ^^^ v0
  let v2 := (v2 + v1) % 2 ^ 64
  let v1 := rotlSpec v1 17
  let v1 := v1 ^^^ v2
  let v2 := rotlSpec v2 32
  (v0, v1, v2, v3)

/-- Modelled from the spec (section 4.1, "Finalize"): the five finalization
steps, with the compression permutation applied by `Function.iterate` so the
round counts 2 and 4 are explicit. -/
def resultSpec (s : SipState) : Nat :=
  let b := ((s.length &&& 0xff) <<< 56) ||| s.tail
  let w := compress^[2] (s.v0, s.v1, s.v2, s.v3 ^^^ b)
  let x := compress^[4] (w.1 ^^^ b, w.2.1, w.2.2.1 ^^^ 0xff, w.2.2.2)
  x.1 ^^^ x.2.1 ^^^ x.2.2.1 ^^^ x.2.2.2

/-- The 64-bit word obtained by reading the eight ASCII bytes of `str` as a
little-endian 64-bit word (first character least significant), as the claim
about the IV constants words it. -/
def asciiLE (str : String) : Nat :=
  u8to64_le_n (str.toList.map Char.toNat) 0 8

/-- The 64-bit word obtained by reading the ASCII bytes of `str` as a
big-endian 64-bit word (first character most significant). -/
def asciiBE (str : String) : Nat :=
  str.toList.foldl (fun acc c => acc * 256 + c.toNat) 0

/-! ### Bit-twiddling toolkit -/

theorem lor_shiftLeft_distrib (x y k : Nat) :
    (x ||| y) <<< k = x <<< k ||| y <<< k := by
  apply Nat.eq_of_testBit_eq
  intro j
  simp [Nat.testBit_shiftLeft, Bool.and_or_distrib_left]

theorem shiftLeft_comp (x a b : Nat) : (x <<< a) <<< b = x <<< (a + b) :=
  (Nat.shiftLeft_add x a b).symm

theorem and_seven_eq_mod (x : Nat) : x &&& 0x7 = x % 8 := by
  have h := Nat.and_pow_two_sub_one_eq_mod x 3
  norm_num at h
  exact h

theorem and_maskF8_eq (x : Nat) (hx : x < 2 ^ 64) :
    x &&& 0xfffffffffffffff8 = 8 * (x / 8) := by
  have hm : (0xfffffffffffffff8 : Nat) = (2 ^ 61 - 1) <<< 3 := by decide
  have h8 : 8 * (x / 8) = (x >>> 3) <<< 3 := by
    rw [Nat.shiftRight_eq_div_pow, Nat.shiftLeft_eq]
    norm_num [Nat.mul_comm]
  apply Nat.eq_of_testBit_eq
  intro j
  rw [Nat.testBit_and, hm, h8, Nat.testBit_shiftLeft, Nat.testBit_shiftLeft,
    Nat.testBit_shiftRight, Nat.testBit_two_pow_sub_one]
  rcases Nat.lt_or_ge j 3 with h3 | h3
  · simp [Nat.not_le.mpr h3]
  · have hj : 3 + (j - 3) = j := by omega
    rw [hj]
    rcases Nat.lt_or_ge j 64 with h64 | h64
    · simp [h3, Nat.lt_of_lt_of_le (by omega : j - 3 < 61) (Nat.le_refl 61),
        show j - 3 < 61 by omega]
    · have hxj : x.testBit j = false :=
        Nat.testBit_lt_two_pow
          (Nat.lt_of_lt_of_le hx (Nat.pow_le_pow_right (by norm_num) h64))
      simp [hxj, show ¬ (j - 3 < 61) by omega]

theorem shiftLeft_lt_two_pow {x a : Nat} (h : x < 2 ^ a) (k : Nat) :
    x <<< k < 2 ^ (a + k) := by
  rw [Nat.shiftLeft_eq, Nat.pow_add]
  exact Nat.mul_lt_mul_of_lt_of_le h (Nat.le_refl _) (Nat.pos_pow_of_pos k (by norm_num))

/-! ### List indexing lemmas for `getD` -/

theorem getD_drop (l : List Nat) (i t : Nat) :
    (l.drop i).getD t 0 = l.getD (i + t) 0 := by
  induction i generalizing l with
  | zero => simp
  | succ i ih =>
    cases l with
    | nil => simp
    | cons x xs =>
      rw [List.drop_succ_cons, ih xs, show i + 1 + t = (i + t) + 1 by omega,
        List.getD_cons_succ]

theorem getD_append_left {l1 : List Nat} (l2 : List Nat) {t : Nat}
    (h : t < l1.length) : (l1 ++ l2).getD t 0 = l1.getD t 0 := by
  simp [List.getD_eq_getElem?_getD, List.getElem?_append_left h]

theorem getD_append_boundary (l1 l2 : List Nat) (t : Nat) :
    (l1 ++ l2).getD (l1.length + t) 0 = l2.getD t 0 := by
  simp [List.getD_eq_getElem?_getD, List.getElem?_append_right (Nat.le_add_right _ _)]

theorem getD_take {l : List Nat} {t n : Nat} (h : t < n) :
    (l.take n).getD t 0 = l.getD t 0 := by
  simp [List.getD_eq_getElem?_getD, List.getElem?_take_of_lt h]

theorem getD_mem_lt {l : List Nat} (hb : ∀ b ∈ l, b < 256) (j : Nat) :
    l.getD j 0 < 256 := by
  rcases Nat.lt_or_ge j l.length with h | h
  · rw [List.getD_eq_getElem?_getD, List.getElem?_eq_getElem h]
    exact hb _ (List.getElem_mem h)
  · rw [List.getD_eq_getElem?_getD, List.getElem?_eq_none h]
    norm_num

/-! ### Lemmas about the little-endian packing function -/

theorem u8to64_le_n_congr {buf1 buf2 : List Nat} {i1 i2 : Nat} (n : Nat)
    (h : ∀ t, t < n → buf1.getD (t + i1) 0 = buf2.getD (t + i2) 0) :
    u8to64_le_n buf1 i1 n = u8to64_le_n buf2 i2 n := by
  induction n with
  | zero => rfl
  | succ n ih =>
    rw [u8to64_le_n, u8to64_le_n, ih (fun t ht => h t (by omega)),
      h n (Nat.lt_succ_self n)]

theorem u8to64_le_n_drop (l : List Nat) (i n : Nat) :
    u8to64_le_n (l.drop i) 0 n = u8to64_le_n l i n := by
  refine u8to64_le_n_congr n (fun t ht => ?_)
  rw [Nat.add_zero, getD_drop, Nat.add_comm]

theorem u8to64_le_n_take {l : List Nat} {i n k : Nat} (h : i + n ≤ k) :
    u8to64_le_n (l.take k) i n = u8to64_le_n l i n := by
  refine u8to64_le_n_congr n (fun t ht => ?_)
  exact getD_take (by omega)

theorem u8to64_le_n_cons (b : Nat) (l : List Nat) (n : Nat) :
    u8to64_le_n (b :: l) 0 (n + 1) = b ||| (u8to64_le_n l 0 n) <<< 8 := by
  induction n with
  | zero => simp [u8to64_le_n]
  | succ n ih =>
    rw [u8to64_le_n, ih, u8to64_le_n, lor_shiftLeft_distrib, Nat.or_assoc,
      shiftLeft_comp]
    have h1 : (b :: l).getD (n + 1 + 0) 0 = l.getD (n + 0) 0 := by
      simp
    rw [h1, Nat.add_zero, Nat.add_zero, show n * 8 + 8 = (n + 1) * 8 by ring]

theorem u8to64_le_n_snoc (l : List Nat) (b : Nat) (n : Nat) (hn : l.length = n) :
    u8to64_le_n (l ++ [b]) 0 (n + 1) = u8to64_le_n l 0 n ||| b <<< (n * 8) := by
  rw [u8to64_le_n]
  have h1 : u8to64_le_n (l ++ [b]) 0 n = u8to64_le_n l 0 n := by
    refine u8to64_le_n_congr n (fun t ht => getD_append_left _ (by omega))
  have h2 : (l ++ [b]).getD (n + 0) 0 = b := by
    rw [Nat.add_zero, ← hn, ← Nat.add_zero l.length, getD_append_boundary]
    rfl
  rw [h1, h2]

theorem u8to64_le_eq (msg : List Nat) (i : Nat) :
    u8to64_le msg i = u8to64_le_n msg i 8 := by
  show _ = u8to64_le_n msg i 8
  rw [u8to64_le_n, u8to64_le_n, u8to64_le_n, u8to64_le_n, u8to64_le_n,
    u8to64_le_n, u8to64_le_n, u8to64_le_n, u8to64_le_n]
  simp only [u8to64_le, Nat.zero_or, Nat.shiftLeft_zero]
  norm_num [Nat.add_comm]

theorem u8to64_le_n_zero (buf : List Nat) (i : Nat) : u8to64_le_n buf i 0 = 0 :=
  rfl

theorem u8to64_le_n_lt (buf : List Nat) (i n : Nat)
    (h : ∀ t, t < n → buf.getD (t + i) 0 < 256) :
    u8to64_le_n buf i n < 2 ^ (8 * n) := by
  induction n with
  | zero => simp [u8to64_le_n]
  | succ n ih =>
    rw [u8to64_le_n]
    apply Nat.or_lt_two_pow
    · exact Nat.lt_of_lt_of_le (ih (fun t ht => h t (by omega)))
        (Nat.pow_le_pow_right (by norm_num) (by omega))
    · have hb : buf.getD (n + i) 0 < 2 ^ 8 := h n (Nat.lt_succ_self n)
      have := shiftLeft_lt_two_pow hb (n * 8)
      rw [show 8 + n * 8 = 8 * (n + 1) by ring] at this
      exact this

/-! ### Characterizing the byte-at-a-time absorber -/

theorem absorb_nil (s : SipState) : absorb s [] = s :=
  rfl

theorem absorb_append (s : SipState) (a b : List Nat) :
    absorb s (a ++ b) = absorb (absorb s a) b := by
  simp only [absorb, List.foldl_append]

theorem absorb_cons (s : SipState) (b : Nat) (rest : List Nat) :
    absorb s (b :: rest) = absorb (absorbByte s b) rest :=
  rfl

/-- Absorbing fewer bytes than would complete the pending word only buffers
them into `tail`. -/
theorem absorb_small (msg : List Nat) :
    ∀ s : SipState, s.ntail + msg.length ≤ 7 → s.length < 2 ^ 64 →
      absorb s msg =
        { s with
          length := (s.length + msg.length) % 2 ^ 64
          tail := s.tail ||| u8to64_le_n msg 0 msg.length <<< (8 * s.ntail)
          ntail := s.ntail + msg.length } := by
  induction msg with
  | nil =>
    intro s h hL
    rw [absorb_nil]
    ext <;> simp [u8to64_le_n_zero]
    omega
  | cons b rest ih =>
    intro s h hL
    have hne : ¬ s.ntail = 7 := by simp at h; omega
    have hstep : absorbByte s b =
        { s with length := (s.length + 1) % 2 ^ 64,
                 tail := s.tail ||| b <<< (8 * s.ntail),
                 ntail := s.ntail + 1 } := by
      rw [absorbByte, if_neg hne]
    rw [absorb_cons, hstep, ih _ (by simp at h ⊢; omega) (Nat.mod_lt _ (by norm_num))]
    ext <;> simp
    · omega
    · rw [u8to64_le_n_cons, lor_shiftLeft_distrib, shiftLeft_comp, Nat.or_assoc,
        show 8 + 8 * s.ntail = 8 * (s.ntail + 1) by ring]
    · omega

/-- Absorbing exactly the bytes that complete the pending word mixes the
assembled word into the state and clears the buffer. -/
theorem absorb_fill (s : SipState) (msg : List Nat) (h0 : 0 < msg.length)
    (h8 : s.ntail + msg.length = 8) (hL : s.length < 2 ^ 64) :
    absorb s msg =
      let m := s.tail ||| u8to64_le_n msg 0 msg.length <<< (8 * s.ntail)
      let v := sipRound (s.v0, s.v1, s.v2, s.v3) m
      { s with length := (s.length + msg.length) % 2 ^ 64,
               v0 := v.1, v1 := v.2.1, v2 := v.2.2.1, v3 := v.2.2.2,
               tail := 0, ntail := 0 } := by
  rcases List.eq_nil_or_concat msg with hmsg | ⟨front, b, hmsg⟩
  · subst hmsg; simp at h0
  · rw [List.concat_eq_append] at hmsg
    subst hmsg
    rw [absorb_append, absorb_small front _ (by simp at h8 ⊢; omega) hL]
    have hnt : ({ s with
        length := (s.length + front.length) % 2 ^ 64
        tail := s.tail ||| u8to64_le_n front 0 front.length <<< (8 * s.ntail)
        ntail := s.ntail + front.length } : SipState).ntail = 7 := by
      simp at h8 ⊢; omega
    rw [show absorb _ [b] = absorbByte _ b from rfl, absorbByte, if_pos hnt]
    have hlen : (front ++ [b]).length = front.length + 1 := by simp
    ext <;> simp [hlen]
    · omega
    all_goals
      rw [u8to64_le_n_snoc front b front.length rfl, lor_shiftLeft_distrib,
        shiftLeft_comp, ← Nat.or_assoc,
        show front.length * 8 + 8 * s.ntail = 56 by simp at h8; omega]

/-- The word loop computes `foldBlocks` over the `k` words it visits and ends
with `i` advanced by `8 * k`, whenever the fuel and the bound `endp` allow
exactly `k` iterations. -/
theorem writeLoop_spec (msg : List Nat) (endp : Nat) :
    ∀ (k fuel : Nat) (v : Nat × Nat × Nat × Nat) (i : Nat), k ≤ fuel →
      endp ≤ i + 8 * k → (∀ j, j < k → i + 8 * j < endp) →
      writeLoop msg endp fuel v i = (foldBlocks msg v i k, i + 8 * k) := by
  intro k
  induction k with
  | zero =>
    intro fuel v i _ hle _
    have hni : ¬ i < endp := by omega
    cases fuel with
    | zero => simp [writeLoop, foldBlocks]
    | succ f => simp [writeLoop, foldBlocks, hni]
  | succ k ih =>
    intro fuel v i hk hle hlt
    cases fuel with
    | zero => omega
    | succ f =>
      have hi : i < endp := by
        have h := hlt 0 (by omega)
        simpa using h
      have hstep : writeLoop msg endp (f + 1) v i =
          writeLoop msg endp f (sipRound v (u8to64_le msg i)) (i + 8) := by
        simp [writeLoop, hi]
      rw [hstep, ih f (sipRound v (u8to64_le msg i)) (i + 8) (by omega) (by omega)
        (fun j hj => by have h := hlt (j + 1) (by omega); omega)]
      rw [foldBlocks]
      have : i + 8 + 8 * k = i + 8 * (k + 1) := by ring
      rw [this]

/-- From a clean state (`ntail = 0`, `tail = 0`), absorbing the `k` consecutive
8-byte words of `msg` that start at index `i` folds the message round over
those words and leaves the state clean. -/
theorem absorb_blocks (msg : List Nat) :
    ∀ (k : Nat) (s : SipState) (i : Nat), s.ntail = 0 → s.tail = 0 →
      s.length < 2 ^ 64 → i + 8 * k ≤ msg.length →
      absorb s ((msg.drop i).take (8 * k)) =
        let v := foldBlocks msg (s.v0, s.v1, s.v2, s.v3) i k
        { s with length := (s.length + 8 * k) % 2 ^ 64,
                 v0 := v.1, v1 := v.2.1, v2 := v.2.2.1, v3 := v.2.2.2,
                 tail := 0, ntail := 0 } := by
  intro k
  induction k with
  | zero =>
    intro s i hnt ht hL _
    rw [Nat.mul_zero, List.take_zero, absorb_nil, foldBlocks]
    ext <;> simp
    · omega
    · exact ht
    · exact hnt
  | succ k ih =>
    intro s i hnt ht hL hk
    have hsplit : (msg.drop i).take (8 * (k + 1)) =
        (msg.drop i).take 8 ++ (msg.drop (i + 8)).take (8 * k) := by
      rw [show 8 * (k + 1) = 8 + 8 * k by ring, List.take_add, List.drop_drop]
    have hlen8 : ((msg.drop i).take 8).length = 8 := by
      simp
      omega
    have hm : u8to64_le_n ((msg.drop i).take 8) 0 8 = u8to64_le msg i := by
      rw [u8to64_le_n_take (by omega), u8to64_le_n_drop, u8to64_le_eq]
    rw [hsplit, absorb_append,
      absorb_fill s _ (by rw [hlen8]; omega) (by rw [hlen8, hnt]) hL]
    simp only [hlen8, hm, hnt, ht, Nat.mul_zero, Nat.shiftLeft_zero, Nat.zero_or]
    rw [ih _ (i + 8) rfl rfl (Nat.mod_lt _ (by norm_num)) (by omega)]
    rw [foldBlocks]
    ext <;> simp
    omega

/-! ### Branch equations for `write` -/

/-- The early-return branch (sip.rs lines 162-166): a pending partial word that
the new bytes do not complete. -/
theorem write_eq_small (s : SipState) (msg : List Nat) (h1 : s.ntail ≠ 0)
    (h2 : msg.length < 8 - s.ntail) :
    write s msg =
      { s with length := (s.length + msg.length) % 2 ^ 64,
               tail := s.tail ||| u8to64_le_n msg 0 msg.length <<< (8 * s.ntail),
               ntail := s.ntail + msg.length } := by
  simp [write, h1, h2]

/-- The fill-and-continue branch (sip.rs lines 168-176): complete the pending
word, mix it, then run the block phase starting at `needed`. -/
theorem write_eq_mix (s : SipState) (msg : List Nat) (h1 : s.ntail ≠ 0)
    (h2 : ¬ msg.length < 8 - s.ntail) :
    write s msg =
      let m := s.tail ||| u8to64_le_n msg 0 (8 - s.ntail) <<< (8 * s.ntail)
      let v := sipRound (s.v0, s.v1, s.v2, s.v3) m
      writeTail { s with length := (s.length + msg.length) % 2 ^ 64,
                         v0 := v.1, v1 := v.2.1, v2 := v.2.2.1, v3 := v.2.2.2,
                         ntail := 0 } msg (8 - s.ntail) := by
  simp [write, h1, h2]

/-- The no-pending-tail branch (sip.rs line 160 false case): go straight to the
block phase with `needed = 0`. -/
theorem write_eq_clean (s : SipState) (msg : List Nat) (h1 : s.ntail = 0) :
    write s msg =
      writeTail { s with length := (s.length + msg.length) % 2 ^ 64 } msg 0 := by
  simp [write, h1]

/-- `writeTail` never reads the incoming `tail` field: it overwrites it. -/
theorem writeTail_tail_irrel (s : SipState) (t : Nat) (msg : List Nat)
    (needed : Nat) :
    writeTail { s with tail := t } msg needed = writeTail s msg needed :=
  rfl

/-- The block-and-leftover phase agrees with byte-at-a-time absorption of the
suffix `msg.drop needed`, for clean states. -/
theorem absorb_drop_eq_writeTail (s : SipState) (msg : List Nat) (needed : Nat)
    (hnt : s.ntail = 0) (ht : s.tail = 0) (hL : s.length < 2 ^ 64)
    (hn7 : needed ≤ 7) (hnm : needed ≤ msg.length) (hmW : msg.length < 2 ^ 64) :
    absorb s (msg.drop needed) =
      writeTail { s with length := (s.length + (msg.length - needed)) % 2 ^ 64 }
        msg needed := by
  have hlenW : msg.length - needed < 2 ^ 64 := by omega
  have hendp : (msg.length - needed) &&& 0xfffffffffffffff8 =
      8 * ((msg.length - needed) / 8) := and_maskF8_eq _ hlenW
  have hleft : (msg.length - needed) &&& 0x7 = (msg.length - needed) % 8 :=
    and_seven_eq_mod _
  set len := msg.length - needed with hlen
  set K := len / 8 with hK
  have h2 : (msg.drop (needed + 8 * K)).take (len % 8) = msg.drop (needed + 8 * K) :=
    List.take_of_length_le (by simp; omega)
  have hdecomp : msg.drop needed =
      (msg.drop needed).take (8 * K) ++ (msg.drop (needed + 8 * K)).take (len % 8) := by
    rw [h2]
    conv_lhs => rw [← List.take_append_drop (8 * K) (msg.drop needed)]
    rw [List.drop_drop]
  rw [hdecomp, absorb_append,
    absorb_blocks msg K s needed hnt ht hL (by omega)]
  simp only []
  rw [absorb_small _ _ (by simp; omega) (Nat.mod_lt _ (by norm_num))]
  have hleftlen : ((msg.drop (needed + 8 * K)).take (len % 8)).length = len % 8 := by
    simp
    omega
  have hpack : u8to64_le_n ((msg.drop (needed + 8 * K)).take (len % 8)) 0 (len % 8)
      = u8to64_le_n msg (needed + 8 * K) (len % 8) := by
    rw [u8to64_le_n_take (by omega), u8to64_le_n_drop]
  rw [writeTail]
  simp only [← hlen, hendp, hleft, ← hK]
  rw [writeLoop_spec msg (8 * K) K (8 * K) _ needed (by omega) (by omega)
    (fun j hj => by omega)]
  ext <;> simp [hleftlen, hpack]
  omega

/-- The master simulation: on every state the engine can actually be in
(`ntail ≤ 7`, `tail` clear when `ntail = 0`, `length` a 64-bit value), `write`
is byte-at-a-time absorption. -/
theorem write_eq_absorb (s : SipState) (msg : List Nat) (h7 : s.ntail ≤ 7)
    (ht : s.ntail = 0 → s.tail = 0) (hL : s.length < 2 ^ 64)
    (hmW : msg.length < 2 ^ 64) : write s msg = absorb s msg := by
  by_cases h1 : s.ntail = 0
  · rw [write_eq_clean s msg h1]
    have h := absorb_drop_eq_writeTail s msg 0 h1 (ht h1) hL (by omega) (by omega) hmW
    simpa using h.symm
  · by_cases h2 : msg.length < 8 - s.ntail
    · rw [write_eq_small s msg h1 h2, absorb_small msg s (by omega) hL]
    · have hneed7 : 8 - s.ntail ≤ 7 := by omega
      have hneedm : 8 - s.ntail ≤ msg.length := by omega
      conv_rhs => rw [← List.take_append_drop (8 - s.ntail) msg]
      rw [absorb_append,
        absorb_fill s (msg.take (8 - s.ntail)) (by simp; omega) (by simp; omega) hL]
      simp only []
      have htake : (msg.take (8 - s.ntail)).length = 8 - s.ntail := by
        simp
        omega
      have hpack : u8to64_le_n (msg.take (8 - s.ntail)) 0 (8 - s.ntail)
          = u8to64_le_n msg 0 (8 - s.ntail) :=
        u8to64_le_n_take (by omega)
      rw [htake, hpack]
      rw [absorb_drop_eq_writeTail _ msg (8 - s.ntail) rfl rfl
        (Nat.mod_lt _ (by norm_num)) hneed7 hneedm hmW]
      rw [write_eq_mix s msg h1 h2]
      simp only []
      have e : ((s.length + (8 - s.ntail)) % 2 ^ 64
          + (msg.length - (8 - s.ntail))) % 2 ^ 64
          = (s.length + msg.length) % 2 ^ 64 := by
        rw [Nat.mod_add_mod]
        congr 1
        omega
      rw [e]
      exact writeTail_tail_irrel
        { s with
          length := (s.length + msg.length) % 2 ^ 64,
          v0 := (sipRound (s.v0, s.v1, s.v2, s.v3)
            (s.tail ||| u8to64_le_n msg 0 (8 - s.ntail) <<< (8 * s.ntail))).1,
          v1 := (sipRound (s.v0, s.v1, s.v2, s.v3)
            (s.tail ||| u8to64_le_n msg 0 (8 - s.ntail) <<< (8 * s.ntail))).2.1,
          v2 := (sipRound (s.v0, s.v1, s.v2, s.v3)
            (s.tail ||| u8to64_le_n msg 0 (8 - s.ntail) <<< (8 * s.ntail))).2.2.1,
          v3 := (sipRound (s.v0, s.v1, s.v2, s.v3)
            (s.tail ||| u8to64_le_n msg 0 (8 - s.ntail) <<< (8 * s.ntail))).2.2.2,
          tail := 0, ntail := 0 }
        s.tail msg (8 - s.ntail)

/-! ### Field laws and invariant preservation -/

theorem and_seven_le (x : Nat) : x &&& 0x7 ≤ 7 := by
  rw [and_seven_eq_mod]
  omega

theorem writeTail_ntail (s : SipState) (msg : List Nat) (needed : Nat) :
    (writeTail s msg needed).ntail = (msg.length - needed) &&& 0x7 := by
  simp [writeTail]

theorem writeTail_length (s : SipState) (msg : List Nat) (needed : Nat) :
    (writeTail s msg needed).length = s.length := by
  simp [writeTail]

theorem writeTail_tail_lt (s : SipState) (msg : List Nat) (needed : Nat)
    (hbD : ∀ j, msg.getD j 0 < 256) :
    (writeTail s msg needed).tail < 2 ^ (8 * (writeTail s msg needed).ntail) := by
  simp only [writeTail]
  exact u8to64_le_n_lt msg _ _ (fun t _ => hbD _)

theorem writeTail_tail_of_ntail_eq_zero (s : SipState) (msg : List Nat)
    (needed : Nat) (h : (writeTail s msg needed).ntail = 0) :
    (writeTail s msg needed).tail = 0 := by
  rw [writeTail_ntail] at h
  simp only [writeTail, h, u8to64_le_n_zero]

theorem new_with_keys_ntail (k0 k1 : Nat) :
    (SipState.new_with_keys k0 k1).ntail = 0 :=
  rfl

theorem new_with_keys_tail (k0 k1 : Nat) :
    (SipState.new_with_keys k0 k1).tail = 0 :=
  rfl

theorem new_with_keys_length (k0 k1 : Nat) :
    (SipState.new_with_keys k0 k1).length = 0 :=
  rfl

theorem write_ntail_le (s : SipState) (msg : List Nat) :
    (write s msg).ntail ≤ 7 := by
  by_cases h1 : s.ntail = 0
  · rw [write_eq_clean s msg h1, writeTail_ntail]
    exact and_seven_le _
  · by_cases h2 : msg.length < 8 - s.ntail
    · rw [write_eq_small s msg h1 h2]
      simp
      omega
    · rw [write_eq_mix s msg h1 h2]
      simp only []
      rw [writeTail_ntail]
      exact and_seven_le _

theorem write_tail_zero (s : SipState) (msg : List Nat)
    (h : (write s msg).ntail = 0) : (write s msg).tail = 0 := by
  by_cases h1 : s.ntail = 0
  · rw [write_eq_clean s msg h1] at h ⊢
    exact writeTail_tail_of_ntail_eq_zero _ _ _ h
  · by_cases h2 : msg.length < 8 - s.ntail
    · rw [write_eq_small s msg h1 h2] at h
      simp at h
      omega
    · rw [write_eq_mix s msg h1 h2] at h ⊢
      simp only [] at h ⊢
      exact writeTail_tail_of_ntail_eq_zero _ _ _ h

theorem write_length_lt (s : SipState) (msg : List Nat) :
    (write s msg).length < 2 ^ 64 := by
  by_cases h1 : s.ntail = 0
  · rw [write_eq_clean s msg h1, writeTail_length]
    exact Nat.mod_lt _ (by norm_num)
  · by_cases h2 : msg.length < 8 - s.ntail
    · rw [write_eq_small s msg h1 h2]
      exact Nat.mod_lt _ (by norm_num)
    · rw [write_eq_mix s msg h1 h2]
      simp only []
      rw [writeTail_length]
      exact Nat.mod_lt _ (by norm_num)

/-- Folding `write` over a list of buffers is byte-at-a-time absorption of
their concatenation, from any reachable state. -/
theorem foldl_write_eq_absorb (bufs : List (List Nat)) :
    ∀ s : SipState, s.ntail ≤ 7 → (s.ntail = 0 → s.tail = 0) →
      s.length < 2 ^ 64 → bufs.flatten.length < 2 ^ 64 →
      bufs.foldl write s = absorb s bufs.flatten := by
  induction bufs with
  | nil =>
    intro s _ _ _ _
    rfl
  | cons p ps ih =>
    intro s h7 ht hL hflat
    have hlens : p.length + ps.flatten.length < 2 ^ 64 := by
      simpa using hflat
    rw [List.foldl_cons, List.flatten_cons, absorb_append,
      ← write_eq_absorb s p h7 ht hL (by omega)]
    exact ih (write s p) (write_ntail_le s p) (write_tail_zero s p)
      (write_length_lt s p) (by omega)

/-- The tail-sensitivity frame: when no partial word is pending, `write` never
reads `tail` (the branch at sip.rs line 160 is skipped, and the block phase
overwrites `tail`). -/
theorem write_tail_irrel (s : SipState) (t : Nat) (msg : List Nat)
    (h : s.ntail = 0) :
    write { s with tail := t } msg = write s msg := by
  have h' : ({ s with tail := t } : SipState).ntail = 0 := h
  rw [write_eq_clean _ msg h', write_eq_clean s msg h]
  exact writeTail_tail_irrel
    { s with length := (s.length + msg.length) % 2 ^ 64 } t msg 0

/-- `reset` produces the freshly-constructed state except that the stale
`tail` word survives. -/
theorem reset_eq_new_except_tail (s : SipState) :
    s.reset = { SipState.new_with_keys s.k0 s.k1 with tail := s.tail } := by
  ext <;> simp [SipState.reset, SipState.new_with_keys]

/-- Buffering bytes into the pending word keeps `tail` bounded by the byte
count recorded in `ntail`. -/
theorem write_tail_lt (s : SipState) (msg : List Nat)
    (hs : s.tail < 2 ^ (8 * s.ntail)) (hb : ∀ b ∈ msg, b < 256) :
    (write s msg).tail < 2 ^ (8 * (write s msg).ntail) := by
  have hbD : ∀ j, msg.getD j 0 < 256 := getD_mem_lt hb
  by_cases h1 : s.ntail = 0
  · rw [write_eq_clean s msg h1]
    exact writeTail_tail_lt _ _ _ hbD
  · by_cases h2 : msg.length < 8 - s.ntail
    · rw [write_eq_small s msg h1 h2]
      show s.tail ||| u8to64_le_n msg 0 msg.length <<< (8 * s.ntail)
          < 2 ^ (8 * (s.ntail + msg.length))
      apply Nat.or_lt_two_pow
      · exact Nat.lt_of_lt_of_le hs (Nat.pow_le_pow_right (by norm_num) (by omega))
      · have hp := u8to64_le_n_lt msg 0 msg.length (fun t _ => hbD _)
        have hsh := shiftLeft_lt_two_pow hp (8 * s.ntail)
        rw [show 8 * msg.length + 8 * s.ntail = 8 * (s.ntail + msg.length)
          by ring] at hsh
        exact hsh
    · rw [write_eq_mix s msg h1 h2]
      simp only []
      exact writeTail_tail_lt _ _ _ hbD

theorem foldl_write_tail_lt (bufs : List (List Nat)) :
    ∀ s : SipState, s.tail < 2 ^ (8 * s.ntail) →
      (∀ buf ∈ bufs, ∀ b ∈ buf, b < 256) →
      (bufs.foldl write s).tail < 2 ^ (8 * (bufs.foldl write s).ntail) := by
  induction bufs with
  | nil =>
    intro s hs _
    exact hs
  | cons p ps ih =>
    intro s hs hb
    rw [List.foldl_cons]
    exact ih _ (write_tail_lt s p hs (hb p (by simp)))
      (fun buf hbuf => hb buf (by simp [hbuf]))

theorem foldl_write_ntail_le (bufs : List (List Nat)) :
    ∀ s : SipState, s.ntail ≤ 7 → (bufs.foldl write s).ntail ≤ 7 := by
  induction bufs with
  | nil =>
    intro s h
    exact h
  | cons p ps ih =>
    intro s _
    rw [List.foldl_cons]
    exact ih _ (write_ntail_le s p)

/-- A single `write` preserves `ntail = length % 8`. -/
theorem write_ntail_mod (s : SipState) (msg : List Nat)
    (h : s.ntail = s.length % 8) :
    (write s msg).ntail = (write s msg).length % 8 := by
  have hdvd : (8 : Nat) ∣ 2 ^ 64 := ⟨2 ^ 61, by norm_num⟩
  by_cases h1 : s.ntail = 0
  · rw [write_eq_clean s msg h1, writeTail_ntail, writeTail_length]
    show (msg.length - 0) &&& 0x7 = (s.length + msg.length) % 2 ^ 64 % 8
    rw [and_seven_eq_mod, Nat.mod_mod_of_dvd _ hdvd]
    omega
  · by_cases h2 : msg.length < 8 - s.ntail
    · rw [write_eq_small s msg h1 h2]
      show s.ntail + msg.length = (s.length + msg.length) % 2 ^ 64 % 8
      rw [Nat.mod_mod_of_dvd _ hdvd]
      omega
    · rw [write_eq_mix s msg h1 h2]
      simp only []
      rw [writeTail_ntail, writeTail_length]
      show (msg.length - (8 - s.ntail)) &&& 0x7
          = (s.length + msg.length) % 2 ^ 64 % 8
      rw [and_seven_eq_mod, Nat.mod_mod_of_dvd _ hdvd]
      omega

theorem foldl_write_ntail_mod (bufs : List (List Nat)) :
    ∀ s : SipState, s.ntail = s.length % 8 →
      (bufs.foldl write s).ntail = (bufs.foldl write s).length % 8 := by
  induction bufs with
  | nil =>
    intro s h
    exact h
  | cons p ps ih =>
    intro s h
    rw [List.foldl_cons]
    exact ih _ (write_ntail_mod s p h)

/-! ### The claims -/

/-- C1: chunking invariance - for every pair of 64-bit keys and every byte
sequence (of a length a `usize` can hold), feeding the sequence through any
partition into consecutive sub-buffers (empty sub-buffers and one byte at a
time included) gives the same digest as one `write` of the whole sequence on a
freshly constructed engine with the same keys. -/
theorem chunking_invariance (k0 k1 : Nat) (parts : List (List Nat))
    (h : parts.flatten.length < 2 ^ 64) :
    (parts.foldl write (SipState.new_with_keys k0 k1)).result
      = (write (SipState.new_with_keys k0 k1) parts.flatten).result := by
  have h0 : (SipState.new_with_keys k0 k1).ntail = 0 := rfl
  have hL : (SipState.new_with_keys k0 k1).length < 2 ^ 64 := by
    rw [new_with_keys_length]
    norm_num
  rw [foldl_write_eq_absorb parts _ (by rw [h0]; omega) (fun _ => rfl) hL h,
    write_eq_absorb _ _ (by rw [h0]; omega) (fun _ => rfl) hL h]

theorem chunking_invariance_witness :
    ([[0], [], [1, 2, 3, 4, 5], [6, 7, 8, 9]] : List (List Nat)).flatten.length
        < 2 ^ 64 ∧
    (([[0], [], [1, 2, 3, 4, 5], [6, 7, 8, 9]] : List (List Nat)).foldl write
        (SipState.new_with_keys 0 0)).result
      = (write (SipState.new_with_keys 0 0)
          ([[0], [], [1, 2, 3, 4, 5], [6, 7, 8, 9]] : List (List Nat)).flatten).result :=
  ⟨by decide, chunking_invariance 0 0 _ (by decide)⟩

/-- C2 (the code contradicts `reset`'s own doc comment "Resets the state to
its initial state"): after absorbing one byte, `reset` leaves the stale byte in
`tail` (97 instead of 0), and finalizing right after the reset therefore
disagrees with finalizing a freshly constructed engine. -/
theorem reset_tail_bug :
    ((write (SipState.new_with_keys 0 0) [97]).reset).tail = 97 ∧
    (SipState.new_with_keys 0 0).tail = 0 ∧
    ((write (SipState.new_with_keys 0 0) [97]).reset).result
      ≠ (SipState.new_with_keys 0 0).result := by
  decide

/-- C3 counterexample: the state reached by `write [97]` then `reset` is
reachable by a sequence of absorb and reset calls, has `ntail = 0`, yet its
`tail` is not zero above byte position `ntail` - the claimed invariant fails. -/
theorem reset_breaks_tail_invariant :
    ((write (SipState.new_with_keys 0 0) [97]).reset).ntail = 0 ∧
    ¬ ((write (SipState.new_with_keys 0 0) [97]).reset).tail
        < 2 ^ (8 * ((write (SipState.new_with_keys 0 0) [97]).reset).ntail) := by
  decide

/-- C3 (amended): in every state reachable from construction by absorb calls
alone (finalize does not touch the state, and reset is excluded - it can leave
stale bytes in `tail`, as `reset_breaks_tail_invariant` shows), `ntail ≤ 7`
holds and the bytes of `tail` at positions `ntail` and above are zero, i.e.
`tail < 2 ^ (8 * ntail)`. -/
theorem tail_invariant (k0 k1 : Nat) (bufs : List (List Nat))
    (hb : ∀ buf ∈ bufs, ∀ b ∈ buf, b < 256) :
    (bufs.foldl write (SipState.new_with_keys k0 k1)).ntail ≤ 7 ∧
    (bufs.foldl write (SipState.new_with_keys k0 k1)).tail
      < 2 ^ (8 * (bufs.foldl write (SipState.new_with_keys k0 k1)).ntail) := by
  constructor
  · exact foldl_write_ntail_le bufs _ (by rw [new_with_keys_ntail]; omega)
  · exact foldl_write_tail_lt bufs _
      (by rw [new_with_keys_tail, new_with_keys_ntail]; norm_num) hb

theorem tail_invariant_witness :
    (∀ buf ∈ ([[1, 2, 3], [252, 253]] : List (List Nat)), ∀ b ∈ buf, b < 256) ∧
    ((([[1, 2, 3], [252, 253]] : List (List Nat)).foldl write
        (SipState.new_with_keys 5 6)).ntail ≤ 7 ∧
      (([[1, 2, 3], [252, 253]] : List (List Nat)).foldl write
        (SipState.new_with_keys 5 6)).tail
        < 2 ^ (8 * (([[1, 2, 3], [252, 253]] : List (List Nat)).foldl write
            (SipState.new_with_keys 5 6)).ntail)) :=
  ⟨by decide, tail_invariant 5 6 _ (by decide)⟩

/-- C7: the partial-block frame condition - with a pending partial word
(`ntail > 0`) and fewer new bytes than would complete it, `write` leaves
`v0..v3` (and the keys) unchanged, ORs the new bytes little-endian shifted by
`8 * ntail` into `tail`, adds the byte count to `ntail`, and adds it to
`length` (modulo `2 ^ 64`, the `uint` wrap). -/
theorem write_partial_frame (s : SipState) (msg : List Nat)
    (h0 : 0 < s.ntail) (h : msg.length < 8 - s.ntail) :
    write s msg =
      { s with
        length := (s.length + msg.length) % 2 ^ 64,
        tail := s.tail ||| u8to64_le_n msg 0 msg.length <<< (8 * s.ntail),
        ntail := s.ntail + msg.length } :=
  write_eq_small s msg (by omega) h

theorem write_partial_frame_witness :
    0 < (⟨0, 0, 3, 11, 22, 33, 44, 5, 3⟩ : SipState).ntail ∧
    ([7, 9] : List Nat).length < 8 - (⟨0, 0, 3, 11, 22, 33, 44, 5, 3⟩ : SipState).ntail ∧
    write ⟨0, 0, 3, 11, 22, 33, 44, 5, 3⟩ [7, 9] =
      { (⟨0, 0, 3, 11, 22, 33, 44, 5, 3⟩ : SipState) with
        length := ((⟨0, 0, 3, 11, 22, 33, 44, 5, 3⟩ : SipState).length
          + ([7, 9] : List Nat).length) % 2 ^ 64,
        tail := (⟨0, 0, 3, 11, 22, 33, 44, 5, 3⟩ : SipState).tail |||
          u8to64_le_n [7, 9] 0 ([7, 9] : List Nat).length
            <<< (8 * (⟨0, 0, 3, 11, 22, 33, 44, 5, 3⟩ : SipState).ntail),
        ntail := (⟨0, 0, 3, 11, 22, 33, 44, 5, 3⟩ : SipState).ntail
          + ([7, 9] : List Nat).length } :=
  ⟨by decide, by decide, write_partial_frame _ _ (by decide) (by decide)⟩

/-- C8: the unkeyed convenience entry point is exactly the keyed one with both
keys zero. -/
theorem hash_default_keys (bufs : List (List Nat)) :
    hash bufs = hash_with_keys 0 0 bufs :=
  rfl

/-- C9 (implicit): once at least one absorb call happens after `reset` - the
first buffer may even be empty - the engine state is identical in every field
to a freshly constructed engine with the same keys fed the same buffers, and
the digest agrees; the first `write` overwrites the one stale field, `tail`. -/
theorem reset_reuse (s : SipState) (bufs : List (List Nat)) (h : bufs ≠ []) :
    bufs.foldl write s.reset
        = bufs.foldl write (SipState.new_with_keys s.k0 s.k1) ∧
    (bufs.foldl write s.reset).result
        = (bufs.foldl write (SipState.new_with_keys s.k0 s.k1)).result := by
  cases bufs with
  | nil => exact absurd rfl h
  | cons b bs =>
    have hfirst : write s.reset b = write (SipState.new_with_keys s.k0 s.k1) b := by
      rw [reset_eq_new_except_tail s]
      exact write_tail_irrel _ s.tail b rfl
    rw [List.foldl_cons, List.foldl_cons, hfirst]
    exact ⟨rfl, rfl⟩

theorem reset_reuse_witness :
    ([[]] : List (List Nat)) ≠ [] ∧
    (([[]] : List (List Nat)).foldl write
          (SipState.reset ⟨2, 3, 10, 1, 1, 1, 1, 99, 4⟩)
        = ([[]] : List (List Nat)).foldl write (SipState.new_with_keys 2 3) ∧
      (([[]] : List (List Nat)).foldl write
          (SipState.reset ⟨2, 3, 10, 1, 1, 1, 1, 99, 4⟩)).result
        = (([[]] : List (List Nat)).foldl write (SipState.new_with_keys 2 3)).result) :=
  ⟨by decide, reset_reuse ⟨2, 3, 10, 1, 1, 1, 1, 99, 4⟩ [[]] (by decide)⟩

/-- C10 (implicit): in every state reachable from construction or from `reset`
by absorb calls, `ntail` equals `length` modulo 8 (the `uint` wrap of `length`
does not disturb this because 8 divides `2 ^ 64`). -/
theorem ntail_eq_length_mod8 (k0 k1 : Nat) (s : SipState)
    (bufs : List (List Nat)) :
    ((bufs.foldl write (SipState.new_with_keys k0 k1)).ntail
        = (bufs.foldl write (SipState.new_with_keys k0 k1)).length % 8) ∧
    ((bufs.foldl write s.reset).ntail
        = (bufs.foldl write s.reset).length % 8) := by
  constructor
  · exact foldl_write_ntail_mod bufs _ rfl
  · exact foldl_write_ntail_mod bufs _ rfl

/-- C4 counterexample: the claim derives the IV constants by reading the ASCII
strings as little-endian words, but the code's constant for `v0` is
`0x736f6d6570736575`, which is "somepseu" read big-endian; the little-endian
reading `0x75657370656d6f73` does not match. -/
theorem construction_iv_le_cex :
    (SipState.new_with_keys 0 0).v0 ≠ 0 ^^^ asciiLE "somepseu" := by
  decide

/-- C4 (amended): construction sets `v0 = key0 XOR C0`, `v1 = key1 XOR C1`,
`v2 = key0 XOR C2`, `v3 = key1 XOR C3` with `length = 0`, `ntail = 0` (and
`tail = 0`), where C0..C3 are the ASCII strings "somepseu", "dorandom",
"lygenera", "tedbytes" read as BIG-endian 64-bit words (first character most
significant), not little-endian as claimed. -/
theorem construction_iv (k0 k1 : Nat) :
    SipState.new_with_keys k0 k1 =
      { k0 := k0, k1 := k1, length := 0,
        v0 := k0 ^^^ asciiBE "somepseu",
        v1 := k1 ^^^ asciiBE "dorandom",
        v2 := k0 ^^^ asciiBE "lygenera",
        v3 := k1 ^^^ asciiBE "tedbytes",
        tail := 0, ntail := 0 } := by
  have c0 : asciiBE "somepseu" = 0x736f6d6570736575 := by decide
  have c1 : asciiBE "dorandom" = 0x646f72616e646f6d := by decide
  have c2 : asciiBE "lygenera" = 0x6c7967656e657261 := by decide
  have c3 : asciiBE "tedbytes" = 0x7465646279746573 := by decide
  rw [c0, c1, c2, c3]
  ext <;> simp [SipState.new_with_keys, SipState.reset]

/-- C5: finalization computes exactly the specified five steps - the padding
word `b = (length AND 0xff) << 56 OR tail`, the message round on `b` (two
compression rounds), the domain-separation `v2 XOR 0xff`, four compression
rounds, and the XOR of the four words.  `result` takes the state immutably
(`&self` in the source, a pure function here), so the persistent
`v0..v3`/`tail`/`ntail`/`length` are untouched and repeated calls agree by
construction. -/
theorem result_eq_resultSpec (s : SipState) : s.result = resultSpec s := by
  rw [SipState.result, resultSpec]
  simp [Function.iterate_succ_apply, Function.iterate_zero_apply, sipRound]

/-- The rotation macro agrees with the arithmetic description of a 64-bit left
rotation for in-range words and rotation amounts. -/
theorem rotl_eq_rotlSpec (x b : Nat) (hb0 : 0 < b) (hb : b < 64)
    (hx : x < 2 ^ 64) : rotl x b = rotlSpec x b := by
  rw [rotl, rotlSpec, Nat.shiftLeft_eq, Nat.shiftRight_eq_div_pow]
  have hsplit : 2 ^ (64 - b) * 2 ^ b = 2 ^ 64 := by
    rw [← pow_add]
    congr 1
    omega
  have hq : x / 2 ^ (64 - b) < 2 ^ b := by
    apply Nat.div_lt_of_lt_mul
    rw [hsplit]
    exact hx
  have hmod : x * 2 ^ b % 2 ^ 64 = x % 2 ^ (64 - b) * 2 ^ b := by
    conv_lhs => rw [← Nat.div_add_mod x (2 ^ (64 - b))]
    have hswap : 2 ^ (64 - b) * (x / 2 ^ (64 - b)) * 2 ^ b
        = x / 2 ^ (64 - b) * 2 ^ 64 := by
      rw [← hsplit]
      ring
    rw [Nat.add_mul, hswap, Nat.add_comm, Nat.add_mul_mod_self_right]
    exact Nat.mod_eq_of_lt (by
      calc x % 2 ^ (64 - b) * 2 ^ b
          < 2 ^ (64 - b) * 2 ^ b := by
            exact Nat.mul_lt_mul_of_lt_of_le (Nat.mod_lt _ (Nat.pos_pow_of_pos _
              (by norm_num))) (Nat.le_refl _) (Nat.pos_pow_of_pos _ (by norm_num))
        _ = 2 ^ 64 := hsplit)
  rw [hmod, Nat.mul_comm (x % 2 ^ (64 - b)) (2 ^ b)]
  exact (Nat.mul_add_lt_is_or hq _).symm

theorem rotl_lt_two_pow (x b : Nat) (hx : x < 2 ^ 64) : rotl x b < 2 ^ 64 := by
  rw [rotl]
  apply Nat.or_lt_two_pow (Nat.mod_lt _ (by norm_num))
  rw [Nat.shiftRight_eq_div_pow]
  exact Nat.lt_of_le_of_lt (Nat.div_le_self _ _) hx

/-- C6: one application of the compression permutation is exactly the
specified add-rotate-xor sequence - all additions wrap modulo `2 ^ 64`, and
each rotation is a genuine 64-bit left rotation (stated arithmetically in
`rotlSpec`) by 13, 32, 16, 21, 17, 32 on the stated operands. -/
theorem compress_eq_compressSpec (v0 v1 v2 v3 : Nat) (_h0 : v0 < 2 ^ 64)
    (h1 : v1 < 2 ^ 64) (_h2 : v2 < 2 ^ 64) (h3 : v3 < 2 ^ 64) :
    compress (v0, v1, v2, v3) = compressSpec (v0, v1, v2, v3) := by
  have w1 : (v0 + v1) % 2 ^ 64 < 2 ^ 64 := Nat.mod_lt _ (by norm_num)
  have w2 : (v2 + v3) % 2 ^ 64 < 2 ^ 64 := Nat.mod_lt _ (by norm_num)
  have e13 : rotl v1 13 = rotlSpec v1 13 :=
    rotl_eq_rotlSpec v1 13 (by norm_num) (by norm_num) h1
  have b13 : rotlSpec v1 13 < 2 ^ 64 := e13 ▸ rotl_lt_two_pow v1 13 h1
  have e32 : rotl ((v0 + v1) % 2 ^ 64) 32 = rotlSpec ((v0 + v1) % 2 ^ 64) 32 :=
    rotl_eq_rotlSpec _ 32 (by norm_num) (by norm_num) w1
  have e16 : rotl v3 16 = rotlSpec v3 16 :=
    rotl_eq_rotlSpec v3 16 (by norm_num) (by norm_num) h3
  have b16 : rotlSpec v3 16 < 2 ^ 64 := e16 ▸ rotl_lt_two_pow v3 16 h3
  have e21 : rotl (rotlSpec v3 16 ^^^ (v2 + v3) % 2 ^ 64) 21
      = rotlSpec (rotlSpec v3 16 ^^^ (v2 + v3) % 2 ^ 64) 21 :=
    rotl_eq_rotlSpec _ 21 (by norm_num) (by norm_num) (Nat.xor_lt_two_pow b16 w2)
  have e17 : rotl (rotlSpec v1 13 ^^^ (v0 + v1) % 2 ^ 64) 17
      = rotlSpec (rotlSpec v1 13 ^^^ (v0 + v1) % 2 ^ 64) 17 :=
    rotl_eq_rotlSpec _ 17 (by norm_num) (by norm_num) (Nat.xor_lt_two_pow b13 w1)
  have e32b : rotl (((v2 + v3) % 2 ^ 64
        + (rotlSpec v1 13 ^^^ (v0 + v1) % 2 ^ 64)) % 2 ^ 64) 32
      = rotlSpec (((v2 + v3) % 2 ^ 64
        + (rotlSpec v1 13 ^^^ (v0 + v1) % 2 ^ 64)) % 2 ^ 64) 32 :=
    rotl_eq_rotlSpec _ 32 (by norm_num) (by norm_num) (Nat.mod_lt _ (by norm_num))
  simp only [compress, compressSpec]
  rw [e13, e32, e16, e21, e17, e32b]

theorem compress_eq_compressSpec_witness :
    (11 : Nat) < 2 ^ 64 ∧ (22 : Nat) < 2 ^ 64 ∧ (33 : Nat) < 2 ^ 64 ∧
    (44 : Nat) < 2 ^ 64 ∧ compress (11, 22, 33, 44) = compressSpec (11, 22, 33, 44) :=
  ⟨by decide, by decide, by decide, by decide,
    compress_eq_compressSpec 11 22 33 44 (by decide) (by decide) (by decide)
      (by decide)⟩

/-! ### Reference test vectors

Sanity checks of the embedding against the published SipHash-2-4 vectors for
the keys `0x0706050403020100`, `0x0f0e0d0c0b0a0908` over the inputs
`[]`, `[0]` and `[0, 1, 2, 3, 4, 5, 6, 7]`. -/

theorem sip_vector_empty :
    hash_with_keys 0x0706050403020100 0x0f0e0d0c0b0a0908 [] = 0x726fdb47dd0e0e31 := by
  decide

theorem sip_vector_one :
    hash_with_keys 0x0706050403020100 0x0f0e0d0c0b0a0908 [[0]] = 0x74f839c593dc67fd := by
  decide

theorem sip_vector_eight :
    hash_with_keys 0x0706050403020100 0x0f0e0d0c0b0a0908 [[0, 1, 2, 3, 4, 5, 6, 7]]
      = 0x93f5f5799a932462 := by
  decide

end Sip
